import Mathlib

/-!
# Verification of the gok render/diff/apply pipeline

A shallow embedding, in Lean 4, of the core data structures and operations of
the `gok` layered configuration renderer:

* the untyped value trees (`map[string]any`) and the deep-merge operations
  (`internal/render/values.go`, `internal/merge/deepmerge.go`),
* the value-precedence chain for template application
  (`internal/render/engine.go`),
* the path resolver (`internal/render/path.go`),
* the lockfile writer/reader (`internal/lockfile/lockfile.go`),
* the three-way differ (`internal/diff/diff.go`),
* the apply executor (`cmd/apply.go`),
* the copy-only file strategy (`internal/strategy/copy_strategy.go`),
* the artifact processor (`internal/artifact/processor.go`).

Go maps are modelled as association lists with unique keys; the filesystem,
HTTP responses and hash functions are explicit parameters, so that every
definition is executable.
-/

namespace Gok

/-! ## Value model

`internal/render/values.go` stores values as `map[string]any`.  The merge code
distinguishes only three shapes of a value: nested string-keyed mappings,
lists, and everything else (scalars).  We model scalars as strings carrying
the Go value's identity. -/

inductive GoVal where
  | scalar (s : String)
  | list (xs : List GoVal)
  | vmap (entries : List (String × GoVal))

/-- `Values` is the Go type `map[string]any`, modelled as an association list
with (by Go map invariant) unique keys. -/
abbrev Values := List (String × GoVal)

/-- Go map read `m[k]` (`ok` form): the binding for `k`, if any.
Generic over the entry type, since the source uses several `map[string]T`. -/
def lookupA {β : Type} : List (String × β) → String → Option β
  | [], _ => none
  | (k', v) :: rest, k => if k' = k then some v else lookupA rest k

/-- Go map store `m[k] = v`: replace the binding for `k`, or add one.
On a unique-keyed association list this is exactly Go's map assignment. -/
def insertA {β : Type} : List (String × β) → String → β → List (String × β)
  | [], k, v => [(k, v)]
  | (k', v') :: rest, k, v =>
    if k' = k then (k, v) :: rest else (k', v') :: insertA rest k v

/-- The keys of a Go map. -/
def keysA {β : Type} (m : List (String × β)) : List String := m.map Prod.fst

-- `mergeInto(dst, src)` from `internal/render/values.go`: for each key of
-- `src`, if the source value is a mapping and the destination holds a mapping
-- at that key, merge recursively; if the source value is a mapping and the
-- destination does not hold one, deep-copy the source mapping in (the copy is
-- `mergeInto` into a fresh empty map); otherwise overwrite with the source
-- value.  The loop body is split out as `mergeIntoEntry`.
mutual

def mergeInto : Values → Values → Values
  | dst, [] => dst
  | dst, (k, v) :: rest => mergeInto (mergeIntoEntry dst k v) rest
termination_by _ src => sizeOf src

def mergeIntoEntry (dst : Values) (k : String) : GoVal → Values
  | .scalar s => insertA dst k (.scalar s)
  | .list xs => insertA dst k (.list xs)
  | .vmap sv =>
    match lookupA dst k with
    | some (.vmap dm) => insertA dst k (.vmap (mergeInto dm sv))
    | _ => insertA dst k (.vmap (mergeInto [] sv))
termination_by v => sizeOf v

end

/-- `DeepMerge(maps...)` from `internal/render/values.go`: start from an empty
map and merge each argument in, left to right. -/
def DeepMerge (maps : List Values) : Values :=
  maps.foldl (fun out m => mergeInto out m) []

/-- Go map membership test `_, ok := m[k]`. -/
def containsA {β : Type} (m : List (String × β)) (k : String) : Bool :=
  (lookupA m k).isSome

-- Well-formedness of a value: every mapping reachable inside it has
-- pairwise-distinct keys (the invariant every Go `map[string]any` enjoys).
mutual

def wfVal : GoVal → Bool
  | .scalar _ => true
  | .list _ => true
  | .vmap m => wfEntries m

def wfEntries : Values → Bool
  | [] => true
  | (k, v) :: rest => !containsA rest k && wfVal v && wfEntries rest

end

/-! ### Per-key characterisation of `mergeInto`

The spec describes `deep_merge` key-wise: where both sides hold mappings it
recurses, otherwise the later (source) value wins.  `mergeSpecAt` is that
description, written from the spec's words; the theorems below show the
iterative source implementation realises it. -/

/-- The spec's per-key description of the merge (spec §4.2): no source value —
keep the destination; both mappings — recurse; source mapping over a
non-mapping — a copy of the source mapping; otherwise the source value. -/
def mergeSpecAt (dv : Option GoVal) : Option GoVal → Option GoVal
  | none => dv
  | some (.vmap svm) =>
    match dv with
    | some (.vmap dvm) => some (.vmap (mergeInto dvm svm))
    | _ => some (.vmap (mergeInto [] svm))
  | some v => some v

/-! ## Sorting of map keys

`Report.SortedPaths` uses `sort.Strings` and `LockFiles.MarshalYAML` uses
`slices.SortFunc` with `strings.Compare`: both sort ascending by byte-wise
lexicographic comparison (UTF-8 byte order coincides with code-point order).
We model the comparison on the character lists and sort by insertion, keyed
on a `String` projection. -/

/-- Lexicographic less-or-equal on character lists, by code point. -/
def charLe : List Char → List Char → Bool
  | [], _ => true
  | _ :: _, [] => false
  | a :: as, b :: bs =>
    if a.toNat < b.toNat then true
    else if a.toNat = b.toNat then charLe as bs
    else false

/-- `strings.Compare a b <= 0`, the ascending sort order of `sort.Strings`
and `slices.SortFunc` with `strings.Compare`. -/
def strLe (a b : String) : Bool := charLe a.data b.data

def insertSortedBy {β : Type} (key : β → String) (x : β) : List β → List β
  | [] => [x]
  | y :: ys =>
    if strLe (key x) (key y) then x :: y :: ys else y :: insertSortedBy key x ys

def sortBy {β : Type} (key : β → String) (l : List β) : List β :=
  l.foldr (insertSortedBy key) []

/-! ## Value overwrites (`-f` files and `-v` flags)

From `internal/render/values.go`: `ValuesOverwritesSpec` holds global
overwrites plus per-target sections; `ValuesForTarget` merges the target
section on top of the global one. -/

structure ValuesTargetOverwrites where
  values : Values

structure ValuesOverwritesSpec where
  version : Int
  values : Values
  targets : List (String × ValuesTargetOverwrites)

/-- `ValuesOverwritesSpec.ValuesForTarget` from `internal/render/values.go`:
the global overwrites, with the target-specific section deep-merged on top
when one exists. -/
def ValuesForTarget (s : ValuesOverwritesSpec) (targetID : String) : Values :=
  match lookupA s.targets targetID with
  | some tv => DeepMerge [s.values, tv.values]
  | none => s.values

/-- Modelled from the spec: the helper `ComputeTemplateValues` called by
`Engine.applyTemplate` is not among the provided sources (only its call site
is).  Spec §4.3 defines the effective values for a template application as
`deep_merge(manifest.values, target.values, template_spec.values,
external_values_for(target_id), flag_overrides_for(target_id))`, with later
arguments taking precedence. -/
def ComputeTemplateValues
    (globalValues targetValues templateSpecValues externalValues flagValues : Values) :
    Values :=
  DeepMerge [globalValues, targetValues, templateSpecValues, externalValues, flagValues]

/-- The value computation performed by `Engine.applyTemplate`
(`internal/render/engine.go`): the external-file and flag overwrite specs are
first resolved for the current target, then enter the precedence chain. -/
def applyTemplateValues (globalValues targetValues templateSpecValues : Values)
    (externalFilesValues flagValueOverwrites : ValuesOverwritesSpec)
    (targetID : String) : Values :=
  ComputeTemplateValues globalValues targetValues templateSpecValues
    (ValuesForTarget externalFilesValues targetID)
    (ValuesForTarget flagValueOverwrites targetID)

/-! ## Lockfile model

From `internal/lockfile/lockfile.go`: the data model, the reader (absent file
is an empty lockfile; unsupported versions are rejected) and the writer
(`Create` walks the tree, skipping directories and the lockfile itself, and
records hash/mtime/size per forward-slashed relative path; `MarshalYAML`
emits the mapping sorted by key). -/

structure LockEntry where
  hash : String
  mtime : Int
  size : Int

abbrev LockFiles := List (String × LockEntry)

structure LockFile where
  version : Int
  generatedAt : Int
  files : LockFiles

def lockFileVersion : Int := 1

def lockFileName : String := "gok-lock.yaml"

/-- What the lockfile reader can find on disk in a directory: no lockfile at
all, an unparsable one, or a parsed document. -/
inductive RawLockState where
  | absent
  | malformed
  | parsed (lock : LockFile)

/-- `lockfile.Read`: an absent file yields an *empty* lockfile (zero-valued
`LockFile` with an empty files map) and no error; a parse failure is an
error; a parsed file with the wrong version is an error. -/
def lockfileRead : RawLockState → Except String LockFile
  | .absent => .ok { version := 0, generatedAt := 0, files := [] }
  | .malformed => .error "parsing lock file"
  | .parsed lock =>
    if lock.version ≠ lockFileVersion then .error "unsupported lock file version"
    else .ok lock

/-- A regular file seen by the `filepath.WalkDir` in `lockfile.Create`:
its forward-slashed path relative to the walk root, its contents, its
modification time converted to UTC and its size. -/
structure SrcFile where
  relPath : String
  content : String
  mtimeUTC : Int
  size : Int

/-- Split a character list at `'/'`. -/
def splitSlashChars : List Char → List (List Char)
  | [] => [[]]
  | c :: cs =>
    let r := splitSlashChars cs
    if c = '/' then [] :: r
    else
      match r with
      | g :: gs => (c :: g) :: gs
      | [] => [[c]]

/-- Split into path components at `/`, dropping empty components. -/
def pathComponents (s : String) : List String :=
  ((splitSlashChars s.data).map String.mk).filter (fun c => c ≠ "")

/-- The last path component, as Go's `dir.Name()` reports for a walked
entry. -/
def baseName (p : String) : String :=
  match (pathComponents p).getLast? with
  | some b => b
  | none => p

/-- The files map built by `lockfile.Create` (parameterised by the SHA-256
hex function): every regular file whose basename is not `gok-lock.yaml` is
recorded under its relative path with its content hash, UTC mtime and
size. -/
def lockfileCreateStep (hash : String → String) (files : LockFiles) (f : SrcFile) :
    LockFiles :=
  if baseName f.relPath = lockFileName then files
  else insertA files f.relPath ⟨hash f.content, f.mtimeUTC, f.size⟩

def lockfileCreateFiles (hash : String → String) (tree : List SrcFile) : LockFiles :=
  tree.foldl (lockfileCreateStep hash) []

/-- `LockFiles.MarshalYAML`: the mapping is emitted as a list of key/value
items sorted ascending by key (`slices.SortFunc` with `strings.Compare`). -/
def marshalLockFiles (files : LockFiles) : List (String × LockEntry) :=
  sortBy Prod.fst files

/-! ## Three-way differ

From `internal/diff/diff.go`.  The on-disk state of the current directory is
abstracted as a function from relative path to the SHA-256 of the file there
(`none` when the file does not exist); `Compare`'s `actualHash` is that hash,
or `""` for a missing file, exactly as `lockfile.FileSHA256` combined with
the `fs.ErrNotExist` check produces. -/

inductive DiffType where
  | Unchanged
  | Created
  | Modified
  | Removed
  | Conflict
  deriving DecidableEq, Repr

structure Change where
  type : DiffType
  path : String
  oldHash : String
  newHash : String

structure Report where
  changes : List (String × Change)
  hasChanges : Bool
  hasConflicts : Bool

def Report.HasChanges (r : Report) : Bool := r.hasChanges

def Report.HasConflicts (r : Report) : Bool := r.hasConflicts

/-- `Report.SortedPaths`: the change paths, sorted ascending. -/
def Report.SortedPaths (r : Report) : List String :=
  sortBy id (keysA r.changes)

/-- `Report.add`: drop `Unchanged`; otherwise store the change, set
`hasChanges`, and set `hasConflicts` for conflicts. -/
def Report.add (r : Report) (t : DiffType) (path oldHash newHash : String) : Report :=
  if t = .Unchanged then r
  else
    { changes := insertA r.changes path ⟨t, path, oldHash, newHash⟩
      hasChanges := true
      hasConflicts := if t = .Conflict then true else r.hasConflicts }

/-- `getUnionKeys`: all keys present in either map (each once; the Go
iteration order over the key set is unspecified, we fix first-occurrence
order). -/
def getUnionKeys {β γ : Type} (m1 : List (String × β)) (m2 : List (String × γ)) :
    List String :=
  (keysA m1 ++ keysA m2).dedup

/-- The per-path case analysis in the body of `Comparer.Compare`
(diff.go lines 101–117), returning the `(type, oldHash, newHash)` triple
passed to `report.add`. -/
def classifyPath (oldEntry newEntry : Option LockEntry) (actualHash : String) :
    Option (DiffType × String × String) :=
  match oldEntry, newEntry with
  | some oe, some ne =>
    if oe.hash ≠ actualHash then some (.Conflict, oe.hash, ne.hash)
    else if oe.hash ≠ ne.hash then some (.Modified, oe.hash, ne.hash)
    else some (.Unchanged, oe.hash, ne.hash)
  | none, some ne => some (.Created, "", ne.hash)
  | some oe, none =>
    if actualHash ≠ "" ∧ oe.hash ≠ actualHash then some (.Conflict, oe.hash, "")
    else some (.Removed, oe.hash, "")
  | none, none => none

/-- One iteration of `Comparer.Compare`'s loop over the union of paths:
`oldEntry`/`newEntry` are the map reads, `actualHash` the on-disk hash (empty
for a missing file). -/
def compareStep (oldFiles newFiles : LockFiles) (disk : String → Option String)
    (report : Report) (path : String) : Report :=
  match classifyPath (lookupA oldFiles path) (lookupA newFiles path) ((disk path).getD "") with
  | some (t, oldHash, newHash) => report.add t path oldHash newHash
  | none => report

/-- `Comparer.Compare`: read both lockfiles (the current one may be absent;
any read error aborts), then classify every path in the union of the two
files maps. -/
def compareLocks (currentRaw desiredRaw : RawLockState)
    (disk : String → Option String) : Except String Report :=
  match lockfileRead currentRaw with
  | .error e => .error e
  | .ok oldLock =>
    match lockfileRead desiredRaw with
    | .error e => .error ("reading desired state lock file: " ++ e)
    | .ok newLock =>
      .ok ((getUnionKeys oldLock.files newLock.files).foldl
        (compareStep oldLock.files newLock.files disk)
        { changes := [], hasChanges := false, hasConflicts := false })

/-! ## Apply executor

From `cmd/apply.go`, the part of the command that runs after the diff report
has been computed and printed.  The destination file operations it performs
are recorded as a trace. -/

inductive ApplyOp where
  | copyFile (path : String)
  | removeFile (path : String)
  | copyLockFile
  deriving DecidableEq, Repr

/-- The file operations performed for the sorted change paths: copy for
Created/Modified/Conflict, remove for Removed, nothing for anything else,
followed by the lockfile installation. -/
def applyOps (r : Report) : List ApplyOp :=
  (r.SortedPaths.foldl
    (fun ops path =>
      match lookupA r.changes path with
      | some c =>
        match c.type with
        | .Created | .Modified | .Conflict => ops ++ [ApplyOp.copyFile path]
        | .Removed => ops ++ [ApplyOp.removeFile path]
        | .Unchanged => ops
      | none => ops)
    []) ++ [ApplyOp.copyLockFile]

/-- `applyCmd.RunE` after `printDiffReport(report)`: dry-run returns with no
operations; conflicts without `--force` fail with no operations; no changes
returns with no operations; otherwise the operation trace of `applyOps` is
executed. -/
def applyChanges (report : Report) (dryRun force : Bool) :
    Except String (List ApplyOp) :=
  if dryRun then .ok []
  else if report.HasConflicts && !force then
    .error "conflicts detected and --force not specified, aborting"
  else if !report.HasChanges then .ok []
  else .ok (applyOps report)

/-! ## Copy-only file strategy

From `internal/strategy/copy_strategy.go`.  `Apply` stats the destination: if
it exists the function returns `nil` (warning when `Overwrite` is unset)
without writing; only when the destination does not exist are the source
bytes streamed and the tracker notified. -/

structure CopyApplyResult where
  dstContent : Option String
  recorded : Bool

set_option linter.unusedVariables false in
/-- `CopyOnlyStrategy.Apply` with `Overwrite` flag `overwrite`, source
contents `srcContent`, and current destination contents `dstContent`
(`none` when the destination file does not exist): the result is the
destination contents after the call plus whether `tr.Record(dst)` ran. -/
def copyOnlyStrategyApply (overwrite : Bool) (srcContent : String)
    (dstContent : Option String) : CopyApplyResult :=
  match dstContent with
  | some existing =>
    -- the function returns nil here whether or not overwrite is set;
    -- the flag only controls the warning log line
    ⟨some existing, false⟩
  | none => ⟨some srcContent, true⟩

/-! ## Path resolver

From `internal/render/path.go` (`resolvePath`), over Go's `path/filepath`
lexical operations for separator `/`: `Clean`, `Join`, `IsAbs`, and
`strings.HasPrefix`. -/

/-- Process `.` and `..` lexically, as `filepath.Clean` does: `.` vanishes;
`..` pops the previous component (never above the root when `rooted`, and
kept literally at the front of a relative path). -/
def cleanComponents (rooted : Bool) (cs : List String) : List String :=
  cs.foldl
    (fun acc c =>
      if c = "." then acc
      else if c = ".." then
        if rooted then acc.dropLast
        else
          match acc.getLast? with
          | some lastC => if lastC = ".." then acc ++ [".."] else acc.dropLast
          | none => [".."]
      else acc ++ [c])
    []

/-- Go's `filepath.IsAbs` for slash-separated paths. -/
def isAbs (s : String) : Bool :=
  match s.data with
  | [] => false
  | c :: _ => c = '/'

/-- Go's `filepath.Clean` for slash-separated paths. -/
def cleanPath (s : String) : String :=
  if isAbs s then "/" ++ String.intercalate "/" (cleanComponents true (pathComponents s))
  else
    let r := String.intercalate "/" (cleanComponents false (pathComponents s))
    if r = "" then "." else r

/-- Go's `filepath.Join` of two elements: concatenate with a separator
(skipping empty elements) and clean. -/
def joinPath (a b : String) : String :=
  if a = "" then cleanPath b
  else if b = "" then cleanPath a
  else cleanPath (a ++ "/" ++ b)

/-- Go's `strings.HasPrefix s pre`. -/
def goStartsWith (s pre : String) : Bool :=
  pre.data.isPrefixOf s.data

/-- `resolvePath(baseDir, rel)` from `internal/render/path.go`: reject
absolute inputs; join and clean; reject results that are neither the cleaned
base nor within it (prefix check with a trailing separator appended to both
sides). -/
def resolvePath (baseDir rel : String) : Except String String :=
  if isAbs rel then .error ("path must be relative: " ++ rel)
  else
    let resolved := cleanPath (joinPath baseDir rel)
    let cleanBaseDir := cleanPath baseDir
    if !(goStartsWith (resolved ++ "/") (cleanBaseDir ++ "/")) && resolved ≠ cleanBaseDir then
      .error ("path " ++ resolved ++ " escapes base dir: " ++ baseDir)
    else .ok resolved

/-! ## Artifact processor

From `internal/artifact/processor.go`, parameterised by the SHA-256 hex
function and by the world the processor observes: the cache entry for the
spec's `<algorithm>/<checksum>` path, the current contents of the output
path, and the HTTP response for the spec's URL. -/

structure ArtifactSpec where
  version : Int
  algorithm : String
  checksum : String
  url : String

inductive HttpResult where
  | fail
  | resp (status : Nat) (body : String)

structure ArtifactWorld where
  cachedContent : Option String
  destContent : Option String
  http : HttpResult

/-- The state after a `Processor.Process` call: its return value, the cache
entry for the spec, the contents of the output path, and any leftover
temporary download file. -/
structure ArtifactOutcome where
  result : Except String Unit
  cacheContent : Option String
  destContent : Option String
  tempContent : Option String

/-- `Processor.download`: HTTP GET; non-200 is fatal; the body is streamed to
a temp file while being hashed; a digest mismatch deletes the temp file and
fails; a match renames the temp file into the cache.  Returns the error or
success together with the cache entry afterwards (the deferred
`os.Remove` leaves no temp file in any case). -/
def processorDownload (hash : String → String) (spec : ArtifactSpec)
    (w : ArtifactWorld) : Except String Unit × Option String :=
  match w.http with
  | .fail => (.error "performing http request", w.cachedContent)
  | .resp status body =>
    if status ≠ 200 then (.error "unexpected http status", w.cachedContent)
    else if hash body ≠ spec.checksum then
      (.error ("checksum mismatch: expected " ++ spec.checksum ++ ", got " ++ hash body),
        w.cachedContent)
    else (.ok (), some body)

/-- `Processor.Process`: place from cache on a hit; otherwise download into
the cache and then place the file at the output path. -/
def processorProcess (hash : String → String) (spec : ArtifactSpec)
    (w : ArtifactWorld) : ArtifactOutcome :=
  match w.cachedContent with
  | some cached => ⟨.ok (), some cached, some cached, none⟩
  | none =>
    match processorDownload hash spec w with
    | (.error e, cacheAfter) => ⟨.error e, cacheAfter, w.destContent, none⟩
    | (.ok _, cacheAfter) =>
      match cacheAfter with
      | some c => ⟨.ok (), cacheAfter, some c, none⟩
      | none => ⟨.error "opening cached artifact", none, w.destContent, none⟩

/-! ## Lemmas -/

/-! ### Lemmas about the association-list map operations -/

theorem lookupA_insertA_self {β : Type} (m : List (String × β)) (k : String) (v : β) :
    lookupA (insertA m k v) k = some v := by
  induction m with
  | nil => simp [insertA, lookupA]
  | cons p rest ih =>
    obtain ⟨k', v'⟩ := p
    by_cases h : k' = k <;> simp [insertA, lookupA, h, ih]

theorem lookupA_insertA_ne {β : Type} (m : List (String × β)) (k k' : String) (v : β)
    (h : k' ≠ k) : lookupA (insertA m k' v) k = lookupA m k := by
  induction m with
  | nil => simp [insertA, lookupA, h]
  | cons p rest ih =>
    obtain ⟨k₀, v₀⟩ := p
    by_cases h₀ : k₀ = k'
    · subst h₀
      simp [insertA, lookupA, h]
    · simp only [insertA, if_neg h₀]
      by_cases h₁ : k₀ = k <;> simp [lookupA, h₁, ih]

theorem lookupA_eq_none_of_not_mem {β : Type} (m : List (String × β)) (k : String)
    (h : k ∉ keysA m) : lookupA m k = none := by
  induction m with
  | nil => rfl
  | cons p rest ih =>
    obtain ⟨k', v'⟩ := p
    simp only [keysA, List.map_cons, List.mem_cons] at h
    push_neg at h
    simp [lookupA, Ne.symm h.1, ih (by simpa [keysA] using h.2)]

theorem lookupA_append_of_none {β : Type} (a b : List (String × β)) (k : String)
    (h : lookupA a k = none) : lookupA (a ++ b) k = lookupA b k := by
  induction a with
  | nil => simp
  | cons p rest ih =>
    obtain ⟨k', v'⟩ := p
    by_cases h' : k' = k
    · simp [lookupA, h'] at h
    · simp only [lookupA, if_neg h'] at h
      simp [lookupA, h', ih h]

theorem insertA_eq_append {β : Type} (m : List (String × β)) (k : String) (v : β)
    (h : lookupA m k = none) : insertA m k v = m ++ [(k, v)] := by
  induction m with
  | nil => simp [insertA]
  | cons p rest ih =>
    obtain ⟨k', v'⟩ := p
    by_cases h' : k' = k
    · simp [lookupA, h'] at h
    · simp only [lookupA, if_neg h'] at h
      simp [insertA, h', ih h]

theorem lookupA_mergeIntoEntry_self (dst : Values) (k : String) (v : GoVal) :
    lookupA (mergeIntoEntry dst k v) k = mergeSpecAt (lookupA dst k) (some v) := by
  cases v with
  | scalar s => simp [mergeIntoEntry, mergeSpecAt, lookupA_insertA_self]
  | list xs => simp [mergeIntoEntry, mergeSpecAt, lookupA_insertA_self]
  | vmap sv =>
    rw [mergeIntoEntry]
    cases hdst : lookupA dst k with
    | none => simp [mergeSpecAt, hdst, lookupA_insertA_self]
    | some dv => cases dv <;> simp [mergeSpecAt, hdst, lookupA_insertA_self]

theorem lookupA_mergeIntoEntry_ne (dst : Values) (k k' : String) (v : GoVal)
    (h : k' ≠ k) : lookupA (mergeIntoEntry dst k' v) k = lookupA dst k := by
  cases v with
  | scalar s => simp [mergeIntoEntry, lookupA_insertA_ne _ _ _ _ h]
  | list xs => simp [mergeIntoEntry, lookupA_insertA_ne _ _ _ _ h]
  | vmap sv =>
    rw [mergeIntoEntry]
    cases hdst : lookupA dst k' with
    | none => simp [lookupA_insertA_ne _ _ _ _ h]
    | some dv => cases dv <;> simp [lookupA_insertA_ne _ _ _ _ h]

theorem lookupA_mergeInto (src : Values) :
    ∀ (dst : Values) (k : String), (keysA src).Nodup →
      lookupA (mergeInto dst src) k = mergeSpecAt (lookupA dst k) (lookupA src k) := by
  induction src with
  | nil =>
    intro dst k _
    simp [mergeInto, lookupA, mergeSpecAt]
  | cons p rest ih =>
    intro dst k hnd
    obtain ⟨k', v'⟩ := p
    simp only [keysA, List.map_cons, List.nodup_cons] at hnd
    have hnd' : (keysA rest).Nodup := hnd.2
    have hk'rest : k' ∉ keysA rest := by simpa [keysA] using hnd.1
    rw [mergeInto, ih _ _ hnd']
    by_cases hk : k' = k
    · subst hk
      have hrest : lookupA rest k' = none := lookupA_eq_none_of_not_mem _ _ hk'rest
      rw [hrest, lookupA_mergeIntoEntry_self]
      simp [lookupA, mergeSpecAt]
    · rw [lookupA_mergeIntoEntry_ne _ _ _ _ hk]
      simp [lookupA, hk]

/-! ### Merging into an empty map copies the source

`mergeInto` into a fresh empty map (the "copy nested map" branch of the
source) reproduces the source exactly, so the merge result shares no
structure with later mutations of its inputs. -/

theorem mergeInto_eq_append_aux (n : Nat) :
    ∀ (src acc : Values), sizeOf src ≤ n → wfEntries src = true →
      (∀ k, containsA src k = true → lookupA acc k = none) →
      mergeInto acc src = acc ++ src := by
  induction n with
  | zero =>
    intro src acc hsz _ _
    cases src with
    | nil => simp [mergeInto]
    | cons p rest => simp at hsz
  | succ m ihm =>
    intro src acc hsz hwf hdisj
    cases src with
    | nil => simp [mergeInto]
    | cons p rest =>
      obtain ⟨k, v⟩ := p
      simp only [wfEntries, Bool.and_eq_true, Bool.not_eq_true'] at hwf
      obtain ⟨⟨hknotin, hwfv⟩, hwfrest⟩ := hwf
      have hacc_k : lookupA acc k = none := by
        apply hdisj
        simp [containsA, lookupA]
      have hszrest : sizeOf rest ≤ m := by simp at hsz; omega
      have hentry : mergeIntoEntry acc k v = acc ++ [(k, v)] := by
        cases v with
        | scalar s => simp [mergeIntoEntry, insertA_eq_append _ _ _ hacc_k]
        | list xs => simp [mergeIntoEntry, insertA_eq_append _ _ _ hacc_k]
        | vmap sv =>
          have hszsv : sizeOf sv ≤ m := by simp at hsz; omega
          have hcopy : mergeInto [] sv = sv := by
            have := ihm sv [] hszsv (by simpa [wfVal] using hwfv)
              (fun k _ => rfl)
            simpa using this
          rw [mergeIntoEntry, hacc_k, hcopy, insertA_eq_append _ _ _ hacc_k]
      rw [mergeInto, hentry]
      have hdisj' : ∀ k', containsA rest k' = true →
          lookupA (acc ++ [(k, v)]) k' = none := by
        intro k' hk'
        have hne : k ≠ k' := by
          intro he
          subst he
          simp [hk'] at hknotin
        have h1 : lookupA acc k' = none := by
          apply hdisj
          simpa [containsA, lookupA, if_neg hne] using hk'
        rw [lookupA_append_of_none _ _ _ h1]
        simp [lookupA, hne]
      rw [ihm rest (acc ++ [(k, v)]) hszrest hwfrest hdisj']
      simp

theorem mergeInto_copy (m : Values) (hwf : wfEntries m = true) :
    mergeInto [] m = m := by
  simpa using mergeInto_eq_append_aux (sizeOf m) m [] le_rfl hwf (fun k _ => rfl)

theorem lookupA_insertA {β : Type} (m : List (String × β)) (k q : String) (v : β) :
    lookupA (insertA m k v) q = if k = q then some v else lookupA m q := by
  by_cases h : k = q
  · subst h
    simp [lookupA_insertA_self]
  · simp [h, lookupA_insertA_ne _ _ _ _ h]

theorem mem_keysA_of_lookupA_some {β : Type} (m : List (String × β)) (k : String)
    {v : β} (h : lookupA m k = some v) : k ∈ keysA m := by
  induction m with
  | nil => simp [lookupA] at h
  | cons p rest ih =>
    obtain ⟨k', v'⟩ := p
    by_cases h' : k' = k
    · simp [keysA, h']
    · simp only [lookupA, if_neg h'] at h
      simp [keysA, h']
      right
      simpa [keysA] using ih h

theorem charLe_total (as : List Char) :
    ∀ bs, charLe as bs = true ∨ charLe bs as = true := by
  induction as with
  | nil => intro bs; exact Or.inl rfl
  | cons a as ih =>
    intro bs
    cases bs with
    | nil => exact Or.inr rfl
    | cons b bs =>
      rcases Nat.lt_trichotomy a.toNat b.toNat with h | h | h
      · exact Or.inl (by simp [charLe, h])
      · rcases ih bs with h1 | h1
        · exact Or.inl (by simp [charLe, h, h1])
        · exact Or.inr (by simp [charLe, h.symm, h1])
      · exact Or.inr (by simp [charLe, h])

theorem charLe_trans (as : List Char) :
    ∀ bs cs, charLe as bs = true → charLe bs cs = true → charLe as cs = true := by
  induction as with
  | nil => intro bs cs _ _; rfl
  | cons a as ih =>
    intro bs cs h1 h2
    cases bs with
    | nil => simp [charLe] at h1
    | cons b bs =>
      cases cs with
      | nil => simp [charLe] at h2
      | cons c cs =>
        rw [charLe] at h1 h2 ⊢
        by_cases hab : a.toNat < b.toNat
        · simp only [hab, if_pos] at h1
          by_cases hbc : b.toNat < c.toNat
          · simp [show a.toNat < c.toNat by omega]
          · simp only [if_neg hbc] at h2
            by_cases hbc' : b.toNat = c.toNat
            · simp [show a.toNat < c.toNat by omega]
            · simp [hbc'] at h2
        · simp only [if_neg hab] at h1
          by_cases hab' : a.toNat = b.toNat
          · simp only [if_pos hab'] at h1
            by_cases hbc : b.toNat < c.toNat
            · simp [show a.toNat < c.toNat by omega]
            · simp only [if_neg hbc] at h2
              by_cases hbc' : b.toNat = c.toNat
              · have hac : a.toNat = c.toNat := by omega
                have hnlt : ¬ a.toNat < c.toNat := by omega
                simp only [if_neg hnlt, if_pos hac]
                simp only [if_pos hbc'] at h2
                exact ih bs cs h1 h2
              · simp [hbc'] at h2
          · simp [hab'] at h1

theorem mem_insertSortedBy {β : Type} (key : β → String) (x b : β) :
    ∀ (l : List β), b ∈ insertSortedBy key x l → b = x ∨ b ∈ l := by
  intro l
  induction l with
  | nil => simp [insertSortedBy]
  | cons y ys ih =>
    intro hb
    rw [insertSortedBy] at hb
    by_cases hxy : strLe (key x) (key y) = true
    · simp only [if_pos hxy, List.mem_cons] at hb
      rcases hb with hb | hb | hb
      · exact Or.inl hb
      · exact Or.inr (by simp [hb])
      · exact Or.inr (by simp [hb])
    · simp only [if_neg hxy, List.mem_cons] at hb
      rcases hb with hb | hb
      · exact Or.inr (by simp [hb])
      · rcases ih hb with h1 | h1
        · exact Or.inl h1
        · exact Or.inr (by simp [h1])

theorem insertSortedBy_pairwise {β : Type} (key : β → String) (x : β)
    (l : List β) (h : l.Pairwise (fun a b => strLe (key a) (key b) = true)) :
    (insertSortedBy key x l).Pairwise (fun a b => strLe (key a) (key b) = true) := by
  induction l with
  | nil => simp [insertSortedBy]
  | cons y ys ih =>
    rw [insertSortedBy]
    by_cases hxy : strLe (key x) (key y) = true
    · simp only [if_pos hxy]
      refine List.Pairwise.cons ?_ h
      intro b hb
      rcases List.mem_cons.mp hb with rfl | hb
      · exact hxy
      · exact charLe_trans _ _ _ hxy (List.rel_of_pairwise_cons h hb)
    · simp only [if_neg hxy]
      have hyx : strLe (key y) (key x) = true := by
        rcases charLe_total (key x).data (key y).data with h1 | h1
        · exact absurd h1 hxy
        · exact h1
      refine List.Pairwise.cons ?_ (ih h.of_cons)
      intro b hb
      rcases mem_insertSortedBy key x b ys hb with rfl | hmem
      · exact hyx
      · exact List.rel_of_pairwise_cons h hmem

theorem sortBy_pairwise {β : Type} (key : β → String) (l : List β) :
    (sortBy key l).Pairwise (fun a b => strLe (key a) (key b) = true) := by
  induction l with
  | nil => simp [sortBy]
  | cons x xs ih => exact insertSortedBy_pairwise key x _ ih


/-! ### Lemmas about the differ's report -/

theorem lookupA_isSome_of_mem_keysA {β : Type} (m : List (String × β)) (k : String)
    (h : k ∈ keysA m) : (lookupA m k).isSome = true := by
  induction m with
  | nil => simp [keysA] at h
  | cons p rest ih =>
    obtain ⟨k', v'⟩ := p
    by_cases h' : k' = k
    · simp [lookupA, h']
    · simp only [keysA, List.map_cons, List.mem_cons] at h
      rcases h with h | h
    
      · exact absurd h.symm h'
      · simp only [lookupA, if_neg h']
        exact ih (by simpa [keysA] using h)

theorem not_mem_keysA_of_lookupA_none {β : Type} (m : List (String × β)) (k : String)
    (h : lookupA m k = none) : k ∉ keysA m := by
  intro hmem
  have := lookupA_isSome_of_mem_keysA m k hmem
  rw [h] at this
  simp at this

theorem insertA_ne_nil {β : Type} (m : List (String × β)) (k : String) (v : β) :
    insertA m k v ≠ [] := by
  cases m with
  | nil => simp [insertA]
  | cons p rest =>
    obtain ⟨k', v'⟩ := p
    by_cases h : k' = k <;> simp [insertA, h]

theorem lookupA_reportAdd_ne (r : Report) (t : DiffType) (p oh nh q : String)
    (h : p ≠ q) :
    lookupA (r.add t p oh nh).changes q = lookupA r.changes q := by
  rw [Report.add]
  by_cases ht : t = .Unchanged
  · simp [ht]
  · simp [ht, lookupA_insertA, h]

theorem lookupA_compareStep_ne (oldF newF : LockFiles) (disk : String → Option String)
    (r : Report) (p q : String) (h : p ≠ q) :
    lookupA (compareStep oldF newF disk r p).changes q = lookupA r.changes q := by
  simp only [compareStep]
  cases hcls : classifyPath (lookupA oldF p) (lookupA newF p) ((disk p).getD "") with
  | none => rfl
  | some tri =>
    obtain ⟨t, oh, nh⟩ := tri
    exact lookupA_reportAdd_ne r t p oh nh q h

theorem lookupA_compareStep_self (oldF newF : LockFiles) (disk : String → Option String)
    (r : Report) (p : String) :
    lookupA (compareStep oldF newF disk r p).changes p =
      (match classifyPath (lookupA oldF p) (lookupA newF p) ((disk p).getD "") with
        | some (t, oh, nh) =>
          if t = DiffType.Unchanged then lookupA r.changes p else some ⟨t, p, oh, nh⟩
        | none => lookupA r.changes p) := by
  simp only [compareStep]
  cases hcls : classifyPath (lookupA oldF p) (lookupA newF p) ((disk p).getD "") with
  | none => rfl
  | some tri =>
    obtain ⟨t, oh, nh⟩ := tri
    by_cases ht : t = DiffType.Unchanged
    · simp [Report.add, ht]
    · simp [Report.add, ht, lookupA_insertA]

theorem lookupA_compareFold (oldF newF : LockFiles) (disk : String → Option String) :
    ∀ (ps : List String) (r : Report) (q : String), ps.Nodup →
      lookupA ((ps.foldl (compareStep oldF newF disk) r).changes) q =
        if q ∈ ps then
          (match classifyPath (lookupA oldF q) (lookupA newF q) ((disk q).getD "") with
            | some (t, oh, nh) =>
              if t = DiffType.Unchanged then lookupA r.changes q else some ⟨t, q, oh, nh⟩
            | none => lookupA r.changes q)
        else lookupA r.changes q := by
  intro ps
  induction ps with
  | nil =>
    intro r q _
    simp
  | cons p ps ih =>
    intro r q hnd
    rw [List.foldl_cons, ih _ _ hnd.of_cons]
    by_cases hq : q = p
    · subst hq
      have hqps : q ∉ ps := by
        have := hnd
        rw [List.nodup_cons] at this
        exact this.1
      rw [if_neg hqps, if_pos (by simp)]
      exact lookupA_compareStep_self oldF newF disk r q
    · rw [lookupA_compareStep_ne oldF newF disk r p q (fun he => hq he.symm)]
      by_cases hmem : q ∈ ps
      · rw [if_pos hmem, if_pos (by simp [hmem])]
      · rw [if_neg hmem, if_neg (by simp [hq, hmem])]

theorem reportInv_add (r : Report) (t : DiffType) (p oh nh : String)
    (h1 : ∀ q c, lookupA r.changes q = some c → c.type ≠ DiffType.Unchanged)
    (h2 : r.hasChanges = true ↔ r.changes ≠ [])
    (h3 : r.hasConflicts = true → r.hasChanges = true) :
    (∀ q c, lookupA (r.add t p oh nh).changes q = some c → c.type ≠ DiffType.Unchanged)
    ∧ ((r.add t p oh nh).hasChanges = true ↔ (r.add t p oh nh).changes ≠ [])
    ∧ ((r.add t p oh nh).hasConflicts = true → (r.add t p oh nh).hasChanges = true) := by
  by_cases ht : t = DiffType.Unchanged
  · have heq : r.add t p oh nh = r := by simp [Report.add, ht]
    rw [heq]
    exact ⟨h1, h2, h3⟩
  · have heq : r.add t p oh nh =
        { changes := insertA r.changes p ⟨t, p, oh, nh⟩
          hasChanges := true
          hasConflicts := if t = DiffType.Conflict then true else r.hasConflicts } := by
      simp [Report.add, ht]
    rw [heq]
    refine ⟨?_, ?_, ?_⟩
    · intro q c hc
      change lookupA (insertA r.changes p ⟨t, p, oh, nh⟩) q = some c at hc
      rw [lookupA_insertA] at hc
      by_cases hpq : p = q
      · rw [if_pos hpq] at hc
        cases hc
        exact ht
      · rw [if_neg hpq] at hc
        exact h1 q c hc
    · simp [insertA_ne_nil]
    · intro _
      rfl

theorem reportInv_fold (oldF newF : LockFiles) (disk : String → Option String) :
    ∀ (ps : List String) (r : Report),
      (∀ q c, lookupA r.changes q = some c → c.type ≠ DiffType.Unchanged) →
      (r.hasChanges = true ↔ r.changes ≠ []) →
      (r.hasConflicts = true → r.hasChanges = true) →
      (∀ q c, lookupA ((ps.foldl (compareStep oldF newF disk) r).changes) q = some c →
          c.type ≠ DiffType.Unchanged)
      ∧ ((ps.foldl (compareStep oldF newF disk) r).hasChanges = true ↔
          (ps.foldl (compareStep oldF newF disk) r).changes ≠ [])
      ∧ ((ps.foldl (compareStep oldF newF disk) r).hasConflicts = true →
          (ps.foldl (compareStep oldF newF disk) r).hasChanges = true) := by
  intro ps
  induction ps with
  | nil =>
    intro r h1 h2 h3
    exact ⟨h1, h2, h3⟩
  | cons p ps ih =>
    intro r h1 h2 h3
    rw [List.foldl_cons]
    have hstep :
        (∀ q c, lookupA (compareStep oldF newF disk r p).changes q = some c →
            c.type ≠ DiffType.Unchanged)
        ∧ ((compareStep oldF newF disk r p).hasChanges = true ↔
            (compareStep oldF newF disk r p).changes ≠ [])
        ∧ ((compareStep oldF newF disk r p).hasConflicts = true →
            (compareStep oldF newF disk r p).hasChanges = true) := by
      simp only [compareStep]
      cases hcls : classifyPath (lookupA oldF p) (lookupA newF p) ((disk p).getD "") with
      | none => exact ⟨h1, h2, h3⟩
      | some tri =>
        obtain ⟨t, oh, nh⟩ := tri
        exact reportInv_add r t p oh nh h1 h2 h3
    exact ih _ hstep.1 hstep.2.1 hstep.2.2


/-! ## Claim theorems -/

/-- C8: `DeepMerge` over a list of value maps is key-wise the spec's merge:
for each key, when both the accumulated value and the incoming value are
mappings it recurses, otherwise the later value wins (lists and scalars are
overwritten); and the "copy nested map" branch (`mergeInto` into a fresh
empty map) reproduces the source exactly, so inputs are copied, never
shared or mutated. -/
theorem deepMerge_keywise_and_copies (maps : List Values) (src : Values) (k : String)
    (hnd : (keysA src).Nodup) (hwf : wfEntries src = true) :
    lookupA (DeepMerge (maps ++ [src])) k =
      mergeSpecAt (lookupA (DeepMerge maps) k) (lookupA src k)
    ∧ mergeInto [] src = src := by
  constructor
  · have hsplit : DeepMerge (maps ++ [src]) = mergeInto (DeepMerge maps) src := by
      simp [DeepMerge]
    rw [hsplit, lookupA_mergeInto _ _ _ hnd]
  · exact mergeInto_copy src hwf

/-- Witness for C8 at a concrete overlapping-nested-map input. -/
theorem deepMerge_keywise_and_copies_witness :
    (keysA [("a", GoVal.vmap [("y", GoVal.scalar "2")])]).Nodup
    ∧ wfEntries [("a", GoVal.vmap [("y", GoVal.scalar "2")])] = true
    ∧ (lookupA
          (DeepMerge ([[("a", GoVal.vmap [("x", GoVal.scalar "1")])]]
            ++ [[("a", GoVal.vmap [("y", GoVal.scalar "2")])]])) "a" =
        mergeSpecAt
          (lookupA (DeepMerge [[("a", GoVal.vmap [("x", GoVal.scalar "1")])]]) "a")
          (lookupA [("a", GoVal.vmap [("y", GoVal.scalar "2")])] "a")
      ∧ mergeInto [] [("a", GoVal.vmap [("y", GoVal.scalar "2")])] =
          [("a", GoVal.vmap [("y", GoVal.scalar "2")])]) :=
  ⟨by simp [keysA], rfl,
    deepMerge_keywise_and_copies
      [[("a", GoVal.vmap [("x", GoVal.scalar "1")])]]
      [("a", GoVal.vmap [("y", GoVal.scalar "2")])] "a"
      (by simp [keysA]) rfl⟩

/-- C3: the effective values of a template application are the deep merge, in
increasing precedence, of the manifest globals, the target values, the
template-spec values, the external `-f` values resolved for the target and
the `-v` flag overwrites resolved for the target; in particular a key set in
the resolved flag overwrites ends up with the flag's value no matter what the
other four sources say. -/
theorem applyTemplate_value_precedence (g tv ts : Values)
    (ext fl : ValuesOverwritesSpec) (tid k s5 : String)
    (hnd : (keysA (ValuesForTarget fl tid)).Nodup)
    (hfl : lookupA (ValuesForTarget fl tid) k = some (GoVal.scalar s5)) :
    applyTemplateValues g tv ts ext fl tid =
      DeepMerge [g, tv, ts, ValuesForTarget ext tid, ValuesForTarget fl tid]
    ∧ lookupA (applyTemplateValues g tv ts ext fl tid) k = some (GoVal.scalar s5) := by
  refine ⟨rfl, ?_⟩
  show lookupA
      (DeepMerge [g, tv, ts, ValuesForTarget ext tid, ValuesForTarget fl tid]) k = _
  have hsplit :
      DeepMerge [g, tv, ts, ValuesForTarget ext tid, ValuesForTarget fl tid] =
        mergeInto (DeepMerge [g, tv, ts, ValuesForTarget ext tid])
          (ValuesForTarget fl tid) := by
    simp [DeepMerge]
  rw [hsplit, lookupA_mergeInto _ _ _ hnd, hfl]
  rfl

/-- Witness for C3: the five-source scenario of the precedence test, `-v` flag
value "5" winning over "1".."4". -/
theorem applyTemplate_value_precedence_witness :
    (keysA (ValuesForTarget ⟨1, [("my_value", GoVal.scalar "5")], []⟩ "t")).Nodup
    ∧ lookupA (ValuesForTarget ⟨1, [("my_value", GoVal.scalar "5")], []⟩ "t") "my_value" =
        some (GoVal.scalar "5")
    ∧ lookupA
        (applyTemplateValues
          [("my_value", GoVal.scalar "1")]
          [("my_value", GoVal.scalar "2")]
          [("my_value", GoVal.scalar "3")]
          ⟨1, [("my_value", GoVal.scalar "4")], []⟩
          ⟨1, [("my_value", GoVal.scalar "5")], []⟩
          "t") "my_value" = some (GoVal.scalar "5") :=
  ⟨by simp [ValuesForTarget, lookupA, keysA], rfl,
    (applyTemplate_value_precedence
      [("my_value", GoVal.scalar "1")]
      [("my_value", GoVal.scalar "2")]
      [("my_value", GoVal.scalar "3")]
      ⟨1, [("my_value", GoVal.scalar "4")], []⟩
      ⟨1, [("my_value", GoVal.scalar "5")], []⟩
      "t" "my_value" "5"
      (by simp [ValuesForTarget, lookupA, keysA]) rfl).2⟩

/-- C5: `resolvePath` fails on absolute inputs; otherwise it fails exactly
when the lexically cleaned join of base and input is neither the cleaned base
nor a strict descendant of it (prefix check with a trailing separator
appended); every path it returns is the cleaned join and equals the base or
lies strictly within it. -/
theorem resolvePath_base_confinement (base rel : String) :
    (isAbs rel = true → resolvePath base rel = .error ("path must be relative: " ++ rel))
    ∧ (isAbs rel = false →
        goStartsWith (cleanPath (joinPath base rel) ++ "/") (cleanPath base ++ "/") = false →
        cleanPath (joinPath base rel) ≠ cleanPath base →
        resolvePath base rel =
          .error ("path " ++ cleanPath (joinPath base rel) ++ " escapes base dir: " ++ base))
    ∧ (∀ p, resolvePath base rel = .ok p →
        p = cleanPath (joinPath base rel)
        ∧ (p = cleanPath base
          ∨ (goStartsWith (p ++ "/") (cleanPath base ++ "/") = true ∧ p ≠ cleanPath base))) := by
  have hval : resolvePath base rel =
      if isAbs rel = true then .error ("path must be relative: " ++ rel)
      else if (!(goStartsWith (cleanPath (joinPath base rel) ++ "/") (cleanPath base ++ "/"))
          && decide (cleanPath (joinPath base rel) ≠ cleanPath base)) = true then
        .error ("path " ++ cleanPath (joinPath base rel) ++ " escapes base dir: " ++ base)
      else .ok (cleanPath (joinPath base rel)) := rfl
  refine ⟨?_, ?_, ?_⟩
  · intro habs
    rw [hval, if_pos habs]
  · intro habs hpre hne
    rw [hval, if_neg (by simp [habs]), if_pos (by simp [hpre, hne])]
  · intro p hp
    rw [hval] at hp
    by_cases habs : isAbs rel = true
    · rw [if_pos habs] at hp
      exact absurd hp (by simp)
    · rw [if_neg habs] at hp
      by_cases hguard :
          (!(goStartsWith (cleanPath (joinPath base rel) ++ "/") (cleanPath base ++ "/"))
            && decide (cleanPath (joinPath base rel) ≠ cleanPath base)) = true
      · rw [if_pos hguard] at hp
        exact absurd hp (by simp)
      · rw [if_neg hguard] at hp
        injection hp with h
        subst h
        refine ⟨rfl, ?_⟩
        by_cases heq : cleanPath (joinPath base rel) = cleanPath base
        · exact Or.inl heq
        · right
          refine ⟨?_, heq⟩
          by_cases hsw :
              goStartsWith (cleanPath (joinPath base rel) ++ "/") (cleanPath base ++ "/") = true
          · exact hsw
          · exfalso
            rw [Bool.not_eq_true] at hsw
            exact hguard (by simp [hsw, heq])

/-- Witness for C5: one rejected absolute input, one escape-rejected input
applied via the success branch on an accepted input. -/
theorem resolvePath_base_confinement_witness :
    (isAbs "/etc/x" = true
      ∧ resolvePath "/srv/work" "/etc/x" = .error ("path must be relative: " ++ "/etc/x"))
    ∧ (resolvePath "/srv/work" "a/../b" = .ok "/srv/work/b"
      ∧ ("/srv/work/b" = cleanPath (joinPath "/srv/work" "a/../b")
        ∧ ("/srv/work/b" = cleanPath "/srv/work"
          ∨ (goStartsWith ("/srv/work/b" ++ "/") (cleanPath "/srv/work" ++ "/") = true
            ∧ "/srv/work/b" ≠ cleanPath "/srv/work")))) :=
  ⟨⟨rfl, (resolvePath_base_confinement "/srv/work" "/etc/x").1 rfl⟩,
    ⟨rfl, (resolvePath_base_confinement "/srv/work" "a/../b").2.2 "/srv/work/b" rfl⟩⟩

/-- C6 (code evaluated at the failing input): with `Overwrite: true` and an
existing destination, `CopyOnlyStrategy.Apply` returns success but leaves the
destination bytes unchanged and records nothing — it never overwrites,
contradicting the claim (and the strategy's own doc comment and its
"should overwrite existing file when Overwrite is true" test). -/
theorem copyOnly_existing_dst_ignores_overwrite :
    copyOnlyStrategyApply true "hello world" (some "i already exist") =
      ⟨some "i already exist", false⟩ := rfl

/-- C4: when the artifact is not cached and the HTTP download completes with
status 200 but the hex digest of the body differs from the spec's checksum,
`Processor.Process` fails with a checksum-mismatch error, leaves no temporary
file, does not touch the destination path, and places nothing in the
cache. -/
theorem process_checksum_mismatch (hash : String → String) (spec : ArtifactSpec)
    (w : ArtifactWorld) (body : String)
    (hmiss : w.cachedContent = none)
    (hhttp : w.http = .resp 200 body)
    (hbad : hash body ≠ spec.checksum) :
    (processorProcess hash spec w).result =
      .error ("checksum mismatch: expected " ++ spec.checksum ++ ", got " ++ hash body)
    ∧ (processorProcess hash spec w).tempContent = none
    ∧ (processorProcess hash spec w).destContent = w.destContent
    ∧ (processorProcess hash spec w).cacheContent = none := by
  simp [processorProcess, processorDownload, hmiss, hhttp, hbad]

/-- Witness for C4 at a concrete world whose downloaded body hashes to the
wrong digest. -/
theorem process_checksum_mismatch_witness :
    ((⟨none, some "before", .resp 200 "body"⟩ : ArtifactWorld).cachedContent = none)
    ∧ ((⟨none, some "before", .resp 200 "body"⟩ : ArtifactWorld).http = .resp 200 "body")
    ∧ ((fun s => String.append s "!") "body" ≠ "cafe")
    ∧ (processorProcess (fun s => String.append s "!")
        ⟨1, "sha256", "cafe", "http://u"⟩
        ⟨none, some "before", .resp 200 "body"⟩).result =
      .error ("checksum mismatch: expected " ++ "cafe" ++ ", got " ++
        (fun s => String.append s "!") "body") :=
  ⟨rfl, rfl, by decide,
    (process_checksum_mismatch (fun s => String.append s "!")
      ⟨1, "sha256", "cafe", "http://u"⟩
      ⟨none, some "before", .resp 200 "body"⟩ "body" rfl rfl (by decide)).1⟩

/-- C2: after the diff report is computed and printed, a dry run returns
successfully having performed no destination file operation; and when the
report has conflicts and `--force` is not set, apply fails with the conflicts
error before performing any destination file operation. -/
theorem apply_dry_run_and_conflict_guard (r : Report) (force : Bool) :
    applyChanges r true force = .ok []
    ∧ (r.HasConflicts = true →
        applyChanges r false false =
          .error "conflicts detected and --force not specified, aborting") := by
  constructor
  · rfl
  · intro h
    simp [applyChanges, h]

/-- Witness for C2 on a report with one conflict. -/
theorem apply_dry_run_and_conflict_guard_witness :
    ((⟨[("f", ⟨DiffType.Conflict, "f", "a", "b"⟩)], true, true⟩ : Report).HasConflicts = true)
    ∧ applyChanges ⟨[("f", ⟨DiffType.Conflict, "f", "a", "b"⟩)], true, true⟩ false false =
        .error "conflicts detected and --force not specified, aborting" :=
  ⟨rfl, (apply_dry_run_and_conflict_guard
    ⟨[("f", ⟨DiffType.Conflict, "f", "a", "b"⟩)], true, true⟩ false).2 rfl⟩


/-- C7 counterexample: with the desired-state lockfile absent, `Compare` does
not fail — `lockfile.Read` returns an empty lockfile for an absent file, so
the comparison proceeds (here classifying the old entry as Removed). -/
theorem compare_absent_desired_counterexample :
    compareLocks (.parsed ⟨1, 0, [("a", ⟨"h", 0, 0⟩)]⟩) .absent (fun _ => none) =
      .ok ⟨[("a", ⟨DiffType.Removed, "a", "h", ""⟩)], true, false⟩ := rfl

/-- C7 (amended): `Comparer.Compare` treats an absent lockfile in the current
directory as an empty lockfile, and it treats an absent desired-state
lockfile the same way rather than failing: `lockfile.Read` only errors on
unparsable files or unsupported versions, so `Compare` succeeds whenever the
current side reads successfully. -/
theorem compare_treats_absent_as_empty (cur des : RawLockState)
    (disk : String → Option String) :
    (compareLocks .absent des disk = compareLocks (.parsed ⟨1, 0, []⟩) des disk)
    ∧ (compareLocks cur .absent disk = compareLocks cur (.parsed ⟨1, 0, []⟩) disk)
    ∧ ((lockfileRead cur).isOk = true → (compareLocks cur .absent disk).isOk = true) := by
  refine ⟨rfl, ?_, ?_⟩
  · cases hcur : lockfileRead cur with
    | error e => simp [compareLocks, hcur]
    | ok oldLock => simp [compareLocks, hcur, lockfileRead, lockFileVersion]
  · intro hok
    cases hcur : lockfileRead cur with
    | error e =>
      rw [hcur] at hok
      simp [Except.isOk, Except.toBool] at hok
    | ok oldLock =>
      simp only [compareLocks, hcur]
      rfl

/-- Witness for C7 (amended), discharging the read-success hypothesis at a
concrete current lockfile. -/
theorem compare_treats_absent_as_empty_witness :
    ((lockfileRead (.parsed ⟨1, 0, [("a", ⟨"h", 0, 0⟩)]⟩)).isOk = true)
    ∧ ((compareLocks (.parsed ⟨1, 0, [("a", ⟨"h", 0, 0⟩)]⟩) .absent (fun _ => none)).isOk
        = true) :=
  ⟨rfl, (compare_treats_absent_as_empty
    (.parsed ⟨1, 0, [("a", ⟨"h", 0, 0⟩)]⟩) .absent (fun _ => none)).2.2 rfl⟩

/-- C10: every report produced by `Comparer.Compare` stores no Unchanged
entry in `Changes`, has `HasChanges` exactly when `Changes` is non-empty, and
`HasConflicts` implies `HasChanges`. -/
theorem compare_report_invariants (cur des : RawLockState)
    (disk : String → Option String) (r : Report)
    (h : compareLocks cur des disk = .ok r) :
    (∀ q c, lookupA r.changes q = some c → c.type ≠ DiffType.Unchanged)
    ∧ (r.HasChanges = true ↔ r.changes ≠ [])
    ∧ (r.HasConflicts = true → r.HasChanges = true) := by
  rw [compareLocks] at h
  cases hcur : lockfileRead cur with
  | error e =>
    rw [hcur] at h
    exact absurd h (by simp)
  | ok oldLock =>
    rw [hcur] at h
    cases hdes : lockfileRead des with
    | error e =>
      rw [hdes] at h
      exact absurd h (by simp)
    | ok newLock =>
      rw [hdes] at h
      have hfold := reportInv_fold oldLock.files newLock.files disk
        (getUnionKeys oldLock.files newLock.files)
        ⟨[], false, false⟩
        (by intro q c hc; exact absurd hc (by simp [lookupA]))
        (by simp)
        (by simp)
      have hr : (getUnionKeys oldLock.files newLock.files).foldl
          (compareStep oldLock.files newLock.files disk) ⟨[], false, false⟩ = r := by
        simpa using h
      rw [hr] at hfold
      exact hfold

/-- Witness for C10: a concrete comparison (one removed file) whose report
satisfies the three invariants. -/
theorem compare_report_invariants_witness :
    (compareLocks (.parsed ⟨1, 0, [("a", ⟨"h", 0, 0⟩)]⟩) (.parsed ⟨1, 0, []⟩)
        (fun _ => none) =
      .ok ⟨[("a", ⟨DiffType.Removed, "a", "h", ""⟩)], true, false⟩)
    ∧ ((∀ q c,
          lookupA (⟨[("a", ⟨DiffType.Removed, "a", "h", ""⟩)], true, false⟩ : Report).changes q
            = some c → c.type ≠ DiffType.Unchanged)
      ∧ ((⟨[("a", ⟨DiffType.Removed, "a", "h", ""⟩)], true, false⟩ : Report).HasChanges = true ↔
          (⟨[("a", ⟨DiffType.Removed, "a", "h", ""⟩)], true, false⟩ : Report).changes ≠ [])
      ∧ ((⟨[("a", ⟨DiffType.Removed, "a", "h", ""⟩)], true, false⟩ : Report).HasConflicts = true →
          (⟨[("a", ⟨DiffType.Removed, "a", "h", ""⟩)], true, false⟩ : Report).HasChanges = true)) :=
  ⟨rfl, compare_report_invariants (.parsed ⟨1, 0, [("a", ⟨"h", 0, 0⟩)]⟩)
    (.parsed ⟨1, 0, []⟩) (fun _ => none) _ rfl⟩

/-- C1: per-path classification of `Comparer.Compare`.  For a path in both
lockfiles: Conflict when the old hash differs from the actual on-disk hash
(empty when the file is missing), else Modified when the old hash differs
from the new one, else Unchanged (not stored in `Changes`).  A path only in
the new lockfile is Created.  A path only in the old lockfile is Conflict
when the file still exists on disk with a hash different from the old hash,
and Removed otherwise. -/
theorem compare_classification (oldF newF : LockFiles) (g1 g2 : Int)
    (disk : String → Option String) (p : String) (r : Report)
    (hdisk : ∀ q h, disk q = some h → h ≠ "")
    (hcmp : compareLocks (.parsed ⟨1, g1, oldF⟩) (.parsed ⟨1, g2, newF⟩) disk = .ok r) :
    (∀ oe ne, lookupA oldF p = some oe → lookupA newF p = some ne →
      lookupA r.changes p =
        (if oe.hash ≠ (disk p).getD "" then some ⟨DiffType.Conflict, p, oe.hash, ne.hash⟩
         else if oe.hash ≠ ne.hash then some ⟨DiffType.Modified, p, oe.hash, ne.hash⟩
         else none))
    ∧ (∀ ne, lookupA oldF p = none → lookupA newF p = some ne →
        lookupA r.changes p = some ⟨DiffType.Created, p, "", ne.hash⟩)
    ∧ (∀ oe, lookupA oldF p = some oe → lookupA newF p = none →
        lookupA r.changes p =
          (match disk p with
            | some h => if oe.hash ≠ h then some ⟨DiffType.Conflict, p, oe.hash, ""⟩
                        else some ⟨DiffType.Removed, p, oe.hash, ""⟩
            | none => some ⟨DiffType.Removed, p, oe.hash, ""⟩))
    ∧ (lookupA oldF p = none → lookupA newF p = none → lookupA r.changes p = none) := by
  have hr : (getUnionKeys oldF newF).foldl
      (compareStep oldF newF disk) ⟨[], false, false⟩ = r := by
    simp [compareLocks, lockfileRead, lockFileVersion] at hcmp
    exact hcmp
  subst hr
  have hnd : (getUnionKeys oldF newF).Nodup := List.nodup_dedup _
  refine ⟨?_, ?_, ?_, ?_⟩
  · intro oe ne ho hn
    have hp : p ∈ getUnionKeys oldF newF := by
      simp only [getUnionKeys, List.mem_dedup, List.mem_append]
      exact Or.inl (mem_keysA_of_lookupA_some _ _ ho)
    rw [lookupA_compareFold oldF newF disk _ _ _ hnd, if_pos hp, ho, hn]
    by_cases h1 : oe.hash = (disk p).getD ""
    · by_cases h2 : oe.hash = ne.hash
      · have h3 : (disk p).getD "" = ne.hash := h1.symm.trans h2
        simp [classifyPath, h1, h2, h3, lookupA]
      · have h3 : ¬(disk p).getD "" = ne.hash := fun hc => h2 (h1.trans hc)
        simp [classifyPath, h1, h2, h3]
    · simp [classifyPath, h1]
  · intro ne ho hn
    have hp : p ∈ getUnionKeys oldF newF := by
      simp only [getUnionKeys, List.mem_dedup, List.mem_append]
      exact Or.inr (mem_keysA_of_lookupA_some _ _ hn)
    rw [lookupA_compareFold oldF newF disk _ _ _ hnd, if_pos hp, ho, hn]
    simp [classifyPath]
  · intro oe ho hn
    have hp : p ∈ getUnionKeys oldF newF := by
      simp only [getUnionKeys, List.mem_dedup, List.mem_append]
      exact Or.inl (mem_keysA_of_lookupA_some _ _ ho)
    rw [lookupA_compareFold oldF newF disk _ _ _ hnd, if_pos hp, ho, hn]
    cases hd : disk p with
    | none => simp [classifyPath, hd]
    | some hsh =>
      have hne : hsh ≠ "" := hdisk p hsh hd
      by_cases h2 : oe.hash = hsh
      · simp [classifyPath, hd, h2]
      · simp [classifyPath, hd, h2, hne]
  · intro ho hn
    have hp : p ∉ getUnionKeys oldF newF := by
      simp only [getUnionKeys, List.mem_dedup, List.mem_append]
      push_neg
      exact ⟨not_mem_keysA_of_lookupA_none _ _ ho, not_mem_keysA_of_lookupA_none _ _ hn⟩
    rw [lookupA_compareFold oldF newF disk _ _ _ hnd, if_neg hp]
    rfl

/-- Witness for C1: a modified path, exercising the both-present branch at a
disk state matching the old hash. -/
theorem compare_classification_witness :
    (∀ q h, (fun q => if q = "a" then some "h1" else none : String → Option String) q
        = some h → h ≠ "")
    ∧ lookupA (⟨[("a", ⟨DiffType.Modified, "a", "h1", "h2"⟩)], true, false⟩ : Report).changes "a" =
        (if ("h1" : String) ≠
            (((fun q => if q = "a" then some "h1" else none : String → Option String) "a").getD "")
          then some ⟨DiffType.Conflict, "a", "h1", "h2"⟩
          else if ("h1" : String) ≠ "h2" then some ⟨DiffType.Modified, "a", "h1", "h2"⟩
          else none) := by
  have hdisk : ∀ q h,
      (fun q => if q = "a" then some "h1" else none : String → Option String) q
        = some h → h ≠ "" := by
    intro q h hq
    by_cases hqa : q = "a"
    · simp [hqa] at hq
      subst hq
      decide
    · simp [hqa] at hq
  exact ⟨hdisk,
    (compare_classification [("a", ⟨"h1", 0, 0⟩)] [("a", ⟨"h2", 0, 0⟩)] 0 0
      (fun q => if q = "a" then some "h1" else none) "a"
      ⟨[("a", ⟨DiffType.Modified, "a", "h1", "h2"⟩)], true, false⟩
      hdisk rfl).1 ⟨"h1", 0, 0⟩ ⟨"h2", 0, 0⟩ rfl rfl⟩


/-- Paths that every walk step either skips (lockfile name) or does not
touch do not change under the `lockfile.Create` fold. -/
theorem lockfileCreate_fold_skip (hash : String → String) :
    ∀ (tree : List SrcFile) (acc : LockFiles) (q : String),
      (∀ g ∈ tree, g.relPath ≠ q ∨ baseName g.relPath = lockFileName) →
      lookupA (tree.foldl (lockfileCreateStep hash) acc) q = lookupA acc q := by
  intro tree
  induction tree with
  | nil => intro acc q _; rfl
  | cons g rest ih =>
    intro acc q hskip
    rw [List.foldl_cons, ih _ _ (fun g' hg' => hskip g' (List.mem_cons_of_mem _ hg'))]
    rcases hskip g (by simp) with hne | hlock
    · rw [lockfileCreateStep]
      by_cases hb : baseName g.relPath = lockFileName
      · rw [if_pos hb]
      · rw [if_neg hb, lookupA_insertA, if_neg hne]
    · rw [lockfileCreateStep, if_pos hlock]

theorem lockfileCreate_fold_records (hash : String → String) :
    ∀ (tree : List SrcFile) (acc : LockFiles),
      (tree.map SrcFile.relPath).Nodup →
      ∀ f ∈ tree, baseName f.relPath ≠ lockFileName →
        lookupA (tree.foldl (lockfileCreateStep hash) acc) f.relPath =
          some ⟨hash f.content, f.mtimeUTC, f.size⟩ := by
  intro tree
  induction tree with
  | nil =>
    intro acc _ f hf
    simp at hf
  | cons g rest ih =>
    intro acc hnd f hf hname
    rw [List.map_cons, List.nodup_cons] at hnd
    rw [List.foldl_cons]
    rcases List.mem_cons.mp hf with rfl | hf'
    · have hnotin : ∀ g' ∈ rest, g'.relPath ≠ f.relPath ∨
          baseName g'.relPath = lockFileName := by
        intro g' hg'
        left
        intro he
        exact hnd.1 (he ▸ List.mem_map_of_mem _ hg')
      rw [lockfileCreate_fold_skip hash rest _ _ hnotin]
      rw [lockfileCreateStep, if_neg hname, lookupA_insertA_self]
    · exact ih _ hnd.2 f hf' hname

/-- C9: `lockfile.Create` records, for every walked regular file except the
lockfile itself, the file's relative path mapped to the hash of its contents,
its UTC modification time and its size; files named `gok-lock.yaml` are
excluded; and `MarshalYAML` emits the mapping's keys in ascending
lexicographic order. -/
theorem lockfileCreate_records_sorted (hash : String → String) (tree : List SrcFile)
    (hnd : (tree.map SrcFile.relPath).Nodup) :
    (∀ f ∈ tree, baseName f.relPath ≠ lockFileName →
      lookupA (lockfileCreateFiles hash tree) f.relPath =
        some ⟨hash f.content, f.mtimeUTC, f.size⟩)
    ∧ (∀ f ∈ tree, baseName f.relPath = lockFileName →
      lookupA (lockfileCreateFiles hash tree) f.relPath = none)
    ∧ ((marshalLockFiles (lockfileCreateFiles hash tree)).map Prod.fst).Pairwise
        (fun a b => strLe a b = true) := by
  refine ⟨?_, ?_, ?_⟩
  · intro f hf hname
    exact lockfileCreate_fold_records hash tree [] hnd f hf hname
  · intro f hf hname
    have hskip : ∀ g ∈ tree, g.relPath ≠ f.relPath ∨
        baseName g.relPath = lockFileName := by
      intro g hg
      by_cases he : g.relPath = f.relPath
      · right
        rw [he]
        exact hname
      · exact Or.inl he
    rw [lockfileCreateFiles, lockfileCreate_fold_skip hash tree [] _ hskip]
    rfl
  · rw [marshalLockFiles]
    have := sortBy_pairwise (Prod.fst) (lockfileCreateFiles hash tree)
    exact (List.pairwise_map).mpr this

/-- Witness for C9: a three-file tree (out-of-order names plus a stray
`gok-lock.yaml`), with the identity taken for the hash function. -/
theorem lockfileCreate_records_sorted_witness :
    (([⟨"b.txt", "B", 5, 1⟩, ⟨"a.txt", "A", 7, 2⟩,
        ⟨"sub/gok-lock.yaml", "L", 0, 3⟩] : List SrcFile).map SrcFile.relPath).Nodup
    ∧ lookupA (lockfileCreateFiles (fun s => s)
        [⟨"b.txt", "B", 5, 1⟩, ⟨"a.txt", "A", 7, 2⟩, ⟨"sub/gok-lock.yaml", "L", 0, 3⟩])
        "b.txt" = some ⟨"B", 5, 1⟩
    ∧ lookupA (lockfileCreateFiles (fun s => s)
        [⟨"b.txt", "B", 5, 1⟩, ⟨"a.txt", "A", 7, 2⟩, ⟨"sub/gok-lock.yaml", "L", 0, 3⟩])
        "sub/gok-lock.yaml" = none
    ∧ ((marshalLockFiles (lockfileCreateFiles (fun s => s)
        [⟨"b.txt", "B", 5, 1⟩, ⟨"a.txt", "A", 7, 2⟩,
          ⟨"sub/gok-lock.yaml", "L", 0, 3⟩])).map Prod.fst).Pairwise
        (fun a b => strLe a b = true) := by
  have hnd : (([⟨"b.txt", "B", 5, 1⟩, ⟨"a.txt", "A", 7, 2⟩,
      ⟨"sub/gok-lock.yaml", "L", 0, 3⟩] : List SrcFile).map SrcFile.relPath).Nodup := by
    simp
  have h := lockfileCreate_records_sorted (fun s => s)
    [⟨"b.txt", "B", 5, 1⟩, ⟨"a.txt", "A", 7, 2⟩, ⟨"sub/gok-lock.yaml", "L", 0, 3⟩] hnd
  refine ⟨hnd, ?_, ?_, h.2.2⟩
  · exact h.1 ⟨"b.txt", "B", 5, 1⟩ (by simp) (by decide)
  · exact h.2.1 ⟨"sub/gok-lock.yaml", "L", 0, 3⟩ (by simp) (by decide)

end Gok
